import Mathlib

/-!
Verification of the journal application's entry store, storage adapter,
pagination and derived views, shallowly embedded from the TypeScript
sources (the `JournalApp` class and `saveEntries`/`loadEntries` in
`src/ui.ts`, `groupEntriesIntoPages`/`saveCurrentPage`/`setupAutoSave`
in `src/entry.ts`, `calculateStreak` in `src/insights.ts`).

Modelling conventions:
- the in-memory store state is the list `entries : List JournalEntry`;
- JavaScript `String.prototype.trim` is modelled character-wise by
  `jsTrim` (whitespace test: `Char.isWhitespace`);
- `localStorage` content under the `journalEntries` key is modelled by
  `StoredBlob`; JSON serialization is modelled at the JSON-value level
  (`JSON.parse(JSON.stringify(v))` recovers the JSON value `v`, so a
  round trip through the string form is the identity on `Json`);
- nondeterministic platform inputs (`generateId()`, `Date.now()`, the
  local-midnight truncation of `new Date(ts).setHours(0,0,0,0)`) are
  passed as explicit parameters.
-/

namespace JournalModel

/-- The closed set of moods (the `Mood` enum of `src/types.ts`, whose
five members are used throughout `src/ui.ts`). -/
inductive Mood where
  | happy
  | sad
  | motivated
  | stressed
  | calm
deriving DecidableEq, Repr

/-- String value of a mood member, as serialized ("happy", "sad", ...). -/
def moodToString : Mood → String
  | .happy => "happy"
  | .sad => "sad"
  | .motivated => "motivated"
  | .stressed => "stressed"
  | .calm => "calm"

/-- Inverse of `moodToString`, used to state per-field recovery of a
serialized entry. -/
def moodOfString? : String → Option Mood
  | "happy" => some .happy
  | "sad" => some .sad
  | "motivated" => some .motivated
  | "stressed" => some .stressed
  | "calm" => some .calm
  | _ => none

/-- A journal entry (`JournalEntry` of `src/types.ts`): the five fields
persisted and manipulated by the store. Timestamps are milliseconds
since epoch (`Date.now()`), hence `Nat`. -/
structure JournalEntry where
  id : String
  title : String
  content : String
  mood : Mood
  timestamp : Nat
deriving DecidableEq, Repr

/-- Character-level whitespace predicate of the trimming model. -/
def isWs (c : Char) : Bool := c.isWhitespace

/-- Drops trailing characters satisfying `p`. -/
def dropTrail (p : Char → Bool) (l : List Char) : List Char :=
  (l.reverse.dropWhile p).reverse

/-- Removes leading and trailing whitespace from a character list. -/
def trimChars (l : List Char) : List Char :=
  dropTrail isWs (l.dropWhile isWs)

/-- Model of JavaScript `String.prototype.trim`. -/
def jsTrim (s : String) : String := String.mk (trimChars s.data)

end JournalModel

namespace JournalModel

/-- Data of `PartialJournalEntry` (`src/ui.ts`): user-supplied fields of
a new entry. -/
structure PartialJournalEntry where
  title : String
  content : String
  mood : Mood

/-- Data of `Partial<PartialJournalEntry>`: the optional fields accepted
by `JournalApp.updateEntry`. -/
structure EntryUpdate where
  title : Option String
  content : Option String
  mood : Option Mood

/-- `JournalApp.getEntryById` / `findByProperty(this.entries, "id", id)`:
first entry whose id equals `i` (`Array.prototype.find`). -/
def getEntryById (i : String) (s : List JournalEntry) : Option JournalEntry :=
  s.find? (fun e => e.id == i)

/-- `JournalApp.addEntry`. `freshId` models the `generateId()` result and
`now` models `Date.now()`; the new entry is pushed at the end. -/
def addEntry (freshId : String) (now : Nat) (p : PartialJournalEntry)
    (s : List JournalEntry) : JournalEntry × List JournalEntry :=
  let newEntry : JournalEntry :=
    { id := freshId, title := jsTrim p.title, content := jsTrim p.content,
      mood := p.mood, timestamp := now }
  (newEntry, s ++ [newEntry])

/-- The field assignments of `JournalApp.updateEntry`: each `undefined`
check keeps the old field, a provided title/content is trimmed, a
provided mood is taken as is; `id` and `timestamp` are not touched. -/
def applyUpdates (e : JournalEntry) (u : EntryUpdate) : JournalEntry :=
  { e with
    title := match u.title with | some t => jsTrim t | none => e.title
    content := match u.content with | some c => jsTrim c | none => e.content
    mood := match u.mood with | some m => m | none => e.mood }

/-- `JournalApp.updateEntry`: mutates the first entry found by id in
place (the TypeScript mutates the object reference returned by
`findByProperty`), returns it, or `none` when the id is absent. -/
def updateEntry (i : String) (u : EntryUpdate) :
    List JournalEntry → Option JournalEntry × List JournalEntry
  | [] => (none, [])
  | e :: es =>
    if e.id == i then (some (applyUpdates e u), applyUpdates e u :: es)
    else
      let r := updateEntry i u es
      (r.1, e :: r.2)

/-- `JournalApp.deleteEntry`: `findIndex` then `splice(index, 1)`;
returns whether an entry was removed. -/
def deleteEntry (i : String) (s : List JournalEntry) : Bool × List JournalEntry :=
  match s.findIdx? (fun e => e.id == i) with
  | none => (false, s)
  | some idx => (true, s.eraseIdx idx)

/-- A JSON value, the result of `JSON.parse` on the stored string. -/
inductive Json where
  | null
  | boolVal (b : Bool)
  | num (n : Int)
  | str (s : String)
  | arr (elems : List Json)
  | obj (fields : List (String × Json))

/-- State of the `journalEntries` key in `localStorage`: key absent, a
string `JSON.parse` rejects, or a string parsing to a JSON value.
Serialization is modelled at the JSON-value level: stringify-then-parse
is the identity on JSON values. -/
inductive StoredBlob where
  | absent
  | malformed
  | value (j : Json)

/-- JSON object produced by serializing one entry (the field set
`JSON.stringify` emits for a `JournalEntry`). -/
def entryToJson (e : JournalEntry) : Json :=
  .obj [("id", .str e.id), ("title", .str e.title), ("content", .str e.content),
        ("mood", .str (moodToString e.mood)), ("timestamp", .num (e.timestamp : Int))]

/-- `saveEntries` (`src/ui.ts`): overwrites the stored blob with the
serialized array, regardless of what was stored before. -/
def saveEntries (entries : List JournalEntry) : StoredBlob :=
  .value (.arr (entries.map entryToJson))

/-- `loadEntries` (`src/ui.ts`): empty on absent key, on parse failure
and on a non-array value; an array is returned with its raw elements
unvalidated — the `parsed as JournalEntry[]` cast performs no per-element
check, so the result type here is `List Json`. -/
def loadEntries : StoredBlob → List Json
  | .absent => []
  | .malformed => []
  | .value (.arr xs) => xs
  | .value _ => []

/-- Per-field reader of a serialized entry: recovers the entry from the
exact object shape `entryToJson` writes; used to state that a loaded
element is per-field equal to the saved entry. -/
def jsonToEntry? : Json → Option JournalEntry
  | .obj [("id", .str i), ("title", .str t), ("content", .str c),
          ("mood", .str m), ("timestamp", .num ts)] =>
    match moodOfString? m with
    | some mo => if ts < 0 then none else some ⟨i, t, c, mo, ts.toNat⟩
    | none => none
  | _ => none

/-- Loop body of `groupEntriesIntoPages` (`src/entry.ts`): each outer
iteration takes up to `c` entries (the inner loop's bound check; its
`if (entry)` truthiness guard never fails since `i + j < length`).
`fuel` bounds the number of outer iterations; `l.length` iterations
suffice whenever `c ≥ 1`, and the source loop does not terminate for
`c = 0` (capacity `pagesPerView` is always 1 or 2). -/
def chunksGo (fuel c : Nat) (l : List JournalEntry) : List (List JournalEntry) :=
  match fuel, l with
  | _, [] => []
  | 0, _ :: _ => []
  | f + 1, x :: xs => ((x :: xs).take c) :: chunksGo f c ((x :: xs).drop c)

/-- `groupEntriesIntoPages` (`src/entry.ts`): consecutive pages of up to
`c` entries; an empty input yields one empty page. -/
def groupEntriesIntoPages (c : Nat) (l : List JournalEntry) : List (List JournalEntry) :=
  let pages := chunksGo l.length c l
  if pages.isEmpty then [[]] else pages

/-- Stable insertion step for descending timestamp order: an element is
placed after all strictly larger timestamps and before equal ones. -/
def insertByTsDesc (e : JournalEntry) : List JournalEntry → List JournalEntry
  | [] => [e]
  | x :: xs => if e.timestamp < x.timestamp then x :: insertByTsDesc e xs else e :: x :: xs

/-- `entries.sort((a, b) => b.timestamp - a.timestamp)`: stable
descending sort by timestamp (stable sorts under one comparator agree,
so insertion sort models `Array.prototype.sort`). -/
def sortByTsDesc : List JournalEntry → List JournalEntry
  | [] => []
  | x :: xs => insertByTsDesc x (sortByTsDesc xs)

/-- Loop of `calculateStreak` (`src/insights.ts`) over the sorted
entries' midnight-truncated days: a day equal to `today - streak`
increments the streak, an earlier day breaks, a later day (same-day
duplicate) is skipped. Days are in day units, so the
`setDate(getDate() - streak)` walk is subtraction by `streak`. -/
def streakGo (today : Int) : List Int → Nat → Nat
  | [], streak => streak
  | d :: ds, streak =>
    if d = today - (streak : Int) then streakGo today ds (streak + 1)
    else if d < today - (streak : Int) then streak
    else streakGo today ds streak

/-- `calculateStreak` (`src/insights.ts`). `dayOf` models the
local-midnight truncation `new Date(ts).setHours(0,0,0,0)` in day units
and `today` models today's truncated date. -/
def calculateStreak (dayOf : Nat → Int) (today : Int)
    (entries : List JournalEntry) : Nat :=
  match entries with
  | [] => 0
  | es => streakGo today ((sortByTsDesc es).map fun e => dayOf e.timestamp) 0

/-- Title passed to `updateEntry` by the paginated editor
(`titleInput.value.trim() || entry.title` in `saveCurrentPage` and in
the title branch of `setupAutoSave`, `src/entry.ts`): the trimmed input
unless it is empty, in which case the entry's existing title. -/
def savePageTitleArg (input : String) (e : JournalEntry) : String :=
  if jsTrim input = "" then e.title else jsTrim input

/-- Per-entry effect of `saveCurrentPage` (`src/entry.ts`): updates the
entry with the fallback title and the raw textarea value as content. -/
def savePageEntry (titleVal contentVal : String) (e : JournalEntry)
    (s : List JournalEntry) : Option JournalEntry × List JournalEntry :=
  updateEntry e.id ⟨some (savePageTitleArg titleVal e), some contentVal, none⟩ s

/-- Debounced content auto-save of `setupAutoSave` (`src/entry.ts`):
updates only the content, with the raw textarea value. -/
def autoSaveContent (i : String) (contentVal : String)
    (s : List JournalEntry) : Option JournalEntry × List JournalEntry :=
  updateEntry i ⟨none, some contentVal, none⟩ s

/-- Debounced title auto-save of `setupAutoSave` (`src/entry.ts`):
updates only the title, with the same empty-title fallback as
`saveCurrentPage`; `e` is the fresh entry read back by id. -/
def autoSaveTitle (titleVal : String) (e : JournalEntry)
    (s : List JournalEntry) : Option JournalEntry × List JournalEntry :=
  updateEntry e.id ⟨some (savePageTitleArg titleVal e), none, none⟩ s

/-- Heap of entry objects by reference, for the aliasing analysis of
`getAllEntries`: a JavaScript array holds references to entry objects,
not copies of them. -/
def setEntryTitle (h : Nat → JournalEntry) (r : Nat) (t : String) :
    Nat → JournalEntry :=
  fun r' => if r' = r then { h r with title := t } else h r'

/-- Heap of array objects by reference: maps an array reference to the
entry references it contains. -/
def setArr (A : Nat → List Nat) (a : Nat) (v : List Nat) : Nat → List Nat :=
  fun a' => if a' = a then v else A a'

/-- `JournalApp.getAllEntries` (`[...this.entries]`): allocates a fresh
array object `cid` whose contents are the same entry references as the
internal array `sid` — a shallow copy. -/
def getAllEntriesAlloc (A : Nat → List Nat) (sid cid : Nat) : Nat → List Nat :=
  setArr A cid (A sid)

/-- The store's observable collection: the entry records reached through
the internal array's references. -/
def observedEntries (h : Nat → JournalEntry) (refs : List Nat) : List JournalEntry :=
  refs.map h

end JournalModel

namespace JournalModel

theorem dropTrail_isPre (p : Char → Bool) (l : List Char) : dropTrail p l <+: l := by
  have h : l.reverse.dropWhile p <:+ l.reverse := List.dropWhile_suffix p
  have h2 : (l.reverse.dropWhile p).reverse <+: l.reverse.reverse := by
    exact List.reverse_prefix.mpr (by simpa using h)
  simpa [dropTrail] using h2

theorem dropWhile_eq_self_of_pre (p : Char → Bool) {l m : List Char}
    (hpre : m <+: l) (hl : l.dropWhile p = l) : m.dropWhile p = m := by
  cases m with
  | nil => simp
  | cons x xs =>
    cases l with
    | nil => simp at hpre
    | cons y ys =>
      have hxy : x = y := by
        rcases hpre with ⟨t, ht⟩
        have := congrArg (fun z => z.head?) ht
        simpa using this
      by_cases hp : p y = true
      · rw [List.dropWhile_cons, if_pos hp] at hl
        have hlen : (ys.dropWhile p).length ≤ ys.length :=
          (List.dropWhile_suffix p).length_le
        have : (ys.dropWhile p).length = ys.length + 1 := by rw [hl]; simp
        omega
      · rw [List.dropWhile_cons, hxy, if_neg hp]

theorem dropWhile_dropTrail (p : Char → Bool) {m : List Char}
    (h : m.dropWhile p = m) : (dropTrail p m).dropWhile p = dropTrail p m :=
  dropWhile_eq_self_of_pre p (dropTrail_isPre p m) h

theorem dropTrail_idem (p : Char → Bool) (l : List Char) :
    dropTrail p (dropTrail p l) = dropTrail p l := by
  simp [dropTrail, List.dropWhile_idempotent]

theorem trimChars_idem (l : List Char) : trimChars (trimChars l) = trimChars l := by
  have h1 : (l.dropWhile isWs).dropWhile isWs = l.dropWhile isWs :=
    List.dropWhile_idempotent isWs l
  have h2 : (dropTrail isWs (l.dropWhile isWs)).dropWhile isWs
      = dropTrail isWs (l.dropWhile isWs) := dropWhile_dropTrail isWs h1
  calc trimChars (trimChars l)
      = dropTrail isWs ((dropTrail isWs (l.dropWhile isWs)).dropWhile isWs) := rfl
    _ = dropTrail isWs (dropTrail isWs (l.dropWhile isWs)) := by rw [h2]
    _ = dropTrail isWs (l.dropWhile isWs) := dropTrail_idem isWs _
    _ = trimChars l := rfl

theorem jsTrim_idem (s : String) : jsTrim (jsTrim s) = jsTrim s := by
  simp [jsTrim, trimChars_idem]

theorem deleteEntry_cons (i : String) (e : JournalEntry) (es : List JournalEntry) :
    deleteEntry i (e :: es) =
      if e.id == i then (true, es)
      else ((deleteEntry i es).1, e :: (deleteEntry i es).2) := by
  by_cases h : (e.id == i) = true
  · simp [deleteEntry, List.findIdx?_cons, h]
  · have h' : (e.id == i) = false := by simpa using h
    rw [if_neg h]
    simp only [deleteEntry, List.findIdx?_cons, h', Bool.false_eq_true, if_false,
      List.findIdx?_succ]
    cases hf : es.findIdx? (fun x => x.id == i) with
    | none => rfl
    | some k => rfl

theorem updateEntry_found (i : String) (u : EntryUpdate) :
    ∀ (s : List JournalEntry) (e : JournalEntry), getEntryById i s = some e →
    ∃ s₁ s₂, s = s₁ ++ e :: s₂ ∧ (∀ x ∈ s₁, (x.id == i) = false) ∧ (e.id == i) = true ∧
      updateEntry i u s = (some (applyUpdates e u), s₁ ++ applyUpdates e u :: s₂)
  | [], e, h => by simp [getEntryById] at h
  | x :: xs, e, h => by
    by_cases hx : (x.id == i) = true
    · have hex : x = e := by
        rw [getEntryById, List.find?_cons_of_pos xs hx] at h
        exact Option.some.inj h
      subst hex
      exact ⟨[], xs, by simp, by simp, hx, by simp [updateEntry, hx]⟩
    · have h' : getEntryById i xs = some e := by
        rw [getEntryById, List.find?_cons_of_neg xs (by simpa using hx)] at h
        exact h
      obtain ⟨s₁, s₂, hs, hall, hei, hupd⟩ := updateEntry_found i u xs e h'
      refine ⟨x :: s₁, s₂, by simp [hs], ?_, hei, ?_⟩
      · intro y hy
        rcases List.mem_cons.mp hy with hy | hy
        · subst hy; simpa using hx
        · exact hall y hy
      · simp [updateEntry, hx, hupd]

theorem getEntryById_updateEntry (i : String) (u : EntryUpdate)
    (s : List JournalEntry) (e : JournalEntry) (h : getEntryById i s = some e) :
    (updateEntry i u s).1 = some (applyUpdates e u) ∧
    getEntryById i (updateEntry i u s).2 = some (applyUpdates e u) := by
  obtain ⟨s₁, s₂, _, hall, hei, hupd⟩ := updateEntry_found i u s e h
  refine ⟨by rw [hupd], ?_⟩
  rw [hupd]
  show getEntryById i (s₁ ++ applyUpdates e u :: s₂) = some (applyUpdates e u)
  rw [getEntryById, List.find?_append]
  have h1 : s₁.find? (fun x => x.id == i) = none :=
    List.find?_eq_none.mpr (by intro x hx; simp [hall x hx])
  have h2 : (applyUpdates e u).id = e.id := rfl
  rw [h1, List.find?_cons_of_pos s₂ (by rw [h2]; exact hei)]
  rfl

theorem updateEntry_noop (i : String) (s : List JournalEntry) (e : JournalEntry)
    (h : getEntryById i s = some e) :
    updateEntry i ⟨none, none, none⟩ s = (some e, s) := by
  obtain ⟨s₁, s₂, hs, _, _, hupd⟩ := updateEntry_found i ⟨none, none, none⟩ s e h
  have hid : applyUpdates e ⟨none, none, none⟩ = e := rfl
  rw [hupd, hid, ← hs]

/-- Concrete store used by the witnesses below. -/
def wEntryA : JournalEntry := ⟨"a", "x", "y", Mood.sad, 1⟩

/-- Second concrete entry of the witness store. -/
def wEntryB : JournalEntry := ⟨"b", "u", "v", Mood.calm, 2⟩

/-- Concrete two-entry store state. -/
def wStore : List JournalEntry := [wEntryA, wEntryB]

/-- Concrete partial entry with untrimmed title and content. -/
def wPartial : PartialJournalEntry := ⟨" t ", " c ", Mood.happy⟩

/-- C1: for every store state and valid partial entry, `addEntry` with a
fresh id assigns that id and the current timestamp, trims title and
content, keeps the mood, appends the created entry at the end of the
collection, and a subsequent `getEntryById` on the returned id yields
exactly the created entry — the input fields (up to the trimming
`addEntry` performs) with the system-assigned id and timestamp. -/
theorem addEntry_getEntryById_spec (s : List JournalEntry) (p : PartialJournalEntry)
    (freshId : String) (now : Nat) (hfresh : ∀ e ∈ s, e.id ≠ freshId) :
    (addEntry freshId now p s).1.id = freshId ∧
    (addEntry freshId now p s).1.timestamp = now ∧
    (addEntry freshId now p s).1.title = jsTrim p.title ∧
    (addEntry freshId now p s).1.content = jsTrim p.content ∧
    (addEntry freshId now p s).1.mood = p.mood ∧
    (addEntry freshId now p s).2 = s ++ [(addEntry freshId now p s).1] ∧
    getEntryById freshId (addEntry freshId now p s).2 = some (addEntry freshId now p s).1 := by
  refine ⟨rfl, rfl, rfl, rfl, rfl, rfl, ?_⟩
  show getEntryById freshId (s ++ [(addEntry freshId now p s).1]) = _
  rw [getEntryById, List.find?_append]
  have h1 : s.find? (fun x => x.id == freshId) = none :=
    List.find?_eq_none.mpr (by intro x hx; simpa using hfresh x hx)
  rw [h1, List.find?_cons_of_pos _ (by simp [addEntry])]
  rfl

/-- Witness for C1 at a concrete store, partial entry and fresh id. -/
theorem addEntry_getEntryById_spec_witness :
    (∀ e ∈ wStore, e.id ≠ "c") ∧
    getEntryById "c" (addEntry "c" 5 wPartial wStore).2
      = some (addEntry "c" 5 wPartial wStore).1 :=
  ⟨by decide, (addEntry_getEntryById_spec wStore wPartial "c" 5 (by decide)).2.2.2.2.2.2⟩

/-- C3: `deleteEntry` on an absent id returns false and leaves the
collection unchanged (in particular its size); on a present id it
returns true, shrinks the collection by exactly one, and — under the
spec's id-uniqueness invariant — a subsequent `getEntryById` on that id
returns none. -/
theorem deleteEntry_spec (s : List JournalEntry) (i : String) :
    ((∀ e ∈ s, e.id ≠ i) → deleteEntry i s = (false, s)) ∧
    ((∃ e ∈ s, e.id = i) →
      (deleteEntry i s).1 = true ∧
      (deleteEntry i s).2.length + 1 = s.length ∧
      ((s.map JournalEntry.id).Nodup → getEntryById i (deleteEntry i s).2 = none)) := by
  induction s with
  | nil =>
    refine ⟨fun _ => rfl, ?_⟩
    rintro ⟨e, he, -⟩
    exact absurd he (List.not_mem_nil e)
  | cons x xs ih =>
    constructor
    · intro h
      have hx : (x.id == i) = false := by
        simpa using h x (List.mem_cons_self x xs)
      have hxs := ih.1 (fun e he => h e (List.mem_cons_of_mem x he))
      rw [deleteEntry_cons, hx]
      simp [hxs]
    · rintro ⟨e, he, hei⟩
      rw [deleteEntry_cons]
      by_cases hx : (x.id == i) = true
      · rw [if_pos hx]
        refine ⟨rfl, by simp, ?_⟩
        intro hnd
        rw [List.map_cons, List.nodup_cons] at hnd
        obtain ⟨hnotin, -⟩ := hnd
        have hxid : x.id = i := by simpa using hx
        apply List.find?_eq_none.mpr
        intro y hy hbeq
        have hyi : y.id = i := by simpa using hbeq
        have : x.id ∈ xs.map JournalEntry.id := by
          rw [hxid, ← hyi]
          exact List.mem_map_of_mem _ hy
        exact hnotin this
      · rw [if_neg hx]
        have hexs : e ∈ xs := by
          rcases List.mem_cons.mp he with rfl | h2
          · exact absurd (by simp [hei]) hx
          · exact h2
        obtain ⟨h1, h2, h3⟩ := ih.2 ⟨e, hexs, hei⟩
        refine ⟨h1, by simp only [List.length_cons]; omega, ?_⟩
        intro hnd
        rw [List.map_cons, List.nodup_cons] at hnd
        have h4 := h3 hnd.2
        rw [getEntryById]
        show (x :: (deleteEntry i xs).2).find? (fun e => e.id == i) = none
        have h5 : (x :: (deleteEntry i xs).2).find? (fun e => e.id == i)
            = ((deleteEntry i xs).2).find? (fun e => e.id == i) :=
          List.find?_cons_of_neg _ hx
        rw [h5]
        exact h4

/-- Witness for C3: both branches at a concrete store. -/
theorem deleteEntry_spec_witness :
    ((∀ e ∈ wStore, e.id ≠ "zz") → deleteEntry "zz" wStore = (false, wStore)) ∧
    ((∃ e ∈ wStore, e.id = "a") →
      (deleteEntry "a" wStore).1 = true ∧
      (deleteEntry "a" wStore).2.length + 1 = wStore.length ∧
      ((wStore.map JournalEntry.id).Nodup →
        getEntryById "a" (deleteEntry "a" wStore).2 = none)) :=
  ⟨(deleteEntry_spec wStore "zz").1, (deleteEntry_spec wStore "a").2⟩

/-- C4: on an entry present in the store, `updateEntry` with no fields
set returns the entry and leaves the whole collection unchanged; with
exactly one of title/content/mood set, the resulting entry is the old
one with only that field changed (title and content trimmed); for every
update, the entry stored afterwards is `applyUpdates e u`, whose id and
timestamp always equal the old entry's. -/
theorem updateEntry_spec (s : List JournalEntry) (i : String) (e : JournalEntry)
    (h : getEntryById i s = some e) :
    updateEntry i ⟨none, none, none⟩ s = (some e, s) ∧
    (∀ t, (updateEntry i ⟨some t, none, none⟩ s).1 = some { e with title := jsTrim t }) ∧
    (∀ c, (updateEntry i ⟨none, some c, none⟩ s).1 = some { e with content := jsTrim c }) ∧
    (∀ m, (updateEntry i ⟨none, none, some m⟩ s).1 = some { e with mood := m }) ∧
    (∀ u, getEntryById i (updateEntry i u s).2 = some (applyUpdates e u)) ∧
    (∀ u, (applyUpdates e u).id = e.id ∧ (applyUpdates e u).timestamp = e.timestamp) := by
  refine ⟨updateEntry_noop i s e h, ?_, ?_, ?_, ?_, fun u => ⟨rfl, rfl⟩⟩
  · intro t; exact (getEntryById_updateEntry i ⟨some t, none, none⟩ s e h).1
  · intro c; exact (getEntryById_updateEntry i ⟨none, some c, none⟩ s e h).1
  · intro m; exact (getEntryById_updateEntry i ⟨none, none, some m⟩ s e h).1
  · intro u; exact (getEntryById_updateEntry i u s e h).2

/-- Witness for C4 at a concrete store and entry. -/
theorem updateEntry_spec_witness :
    getEntryById "a" wStore = some wEntryA ∧
    updateEntry "a" ⟨none, none, none⟩ wStore = (some wEntryA, wStore) :=
  ⟨by decide, (updateEntry_spec wStore "a" wEntryA (by decide)).1⟩

theorem jsonToEntry?_entryToJson (e : JournalEntry) :
    jsonToEntry? (entryToJson e) = some e := by
  obtain ⟨i, t, c, m, ts⟩ := e
  have hm : moodOfString? (moodToString m) = some m := by cases m <;> rfl
  simp [entryToJson, jsonToEntry?, hm]

/-- C2: `saveEntries` followed by `loadEntries` yields the saved
sequence, element by element: the loaded raw values are exactly the
serialized entries, and reading the five fields off each loaded value
recovers the original entry (per-field equality), for any sequence
including the empty one. -/
theorem save_load_roundtrip (es : List JournalEntry) :
    loadEntries (saveEntries es) = es.map entryToJson ∧
    (loadEntries (saveEntries es)).map jsonToEntry? = es.map some := by
  refine ⟨rfl, ?_⟩
  show (es.map entryToJson).map jsonToEntry? = es.map some
  rw [List.map_map]
  exact List.map_congr_left (fun x _ => jsonToEntry?_entryToJson x)

/-- Counterexample to C8 as stated: a stored array whose elements are
not well-formed entries is returned as-is by `loadEntries`, not replaced
by the empty sequence — the code checks `Array.isArray` only and casts
the elements without validation. -/
theorem loadEntries_returns_invalid_array :
    loadEntries (StoredBlob.value (Json.arr [Json.num 1])) = [Json.num 1] ∧
    jsonToEntry? (Json.num 1) = none ∧
    loadEntries (StoredBlob.value (Json.arr [Json.num 1])) ≠ [] :=
  ⟨rfl, rfl, by simp [loadEntries]⟩

/-- C8 (amended): `loadEntries` never raises — it is total — and returns
the empty sequence when the key is absent, when the stored string fails
to deserialize, and when the parsed value is not an array; a parsed
array is returned as-is, without per-element validation. -/
theorem loadEntries_spec :
    loadEntries StoredBlob.absent = [] ∧
    loadEntries StoredBlob.malformed = [] ∧
    (∀ j : Json, (∀ xs, j ≠ Json.arr xs) → loadEntries (StoredBlob.value j) = []) ∧
    (∀ xs, loadEntries (StoredBlob.value (Json.arr xs)) = xs) := by
  refine ⟨rfl, rfl, ?_, fun xs => rfl⟩
  intro j hj
  cases j with
  | arr xs => exact absurd rfl (hj xs)
  | null => rfl
  | boolVal b => rfl
  | num n => rfl
  | str s => rfl
  | obj fs => rfl

/-- Witness for C8 (amended) at a concrete non-array stored value. -/
theorem loadEntries_spec_witness :
    (∀ xs, Json.str "oops" ≠ Json.arr xs) ∧
    loadEntries (StoredBlob.value (Json.str "oops")) = [] :=
  ⟨fun _ h => Json.noConfusion h,
    loadEntries_spec.2.2.1 (Json.str "oops") (fun _ h => Json.noConfusion h)⟩

/-- Counterexample to C5 as stated: a save from the paginated editor
with textarea text "hello " (trailing blank) stores content "hello" —
`saveCurrentPage` passes the raw text but `updateEntry` trims every
content write, so the raw text is not preserved verbatim. -/
theorem savePage_raw_content_counterexample :
    (getEntryById "a" (savePageEntry "x" "hello " wEntryA wStore).2).map
      JournalEntry.content = some "hello" ∧
    (getEntryById "a" (savePageEntry "x" "hello " wEntryA wStore).2).map
      JournalEntry.content ≠ some "hello " := by
  constructor
  · decide
  · decide

/-- C5 (amended): entry content is trimmed on every write, including
writes issued by the paginated editor: both the explicit Save action and
the debounced auto-save pass the raw textarea text, but `updateEntry`
trims it, so the stored content afterwards equals the trimmed textarea
text. -/
theorem savePage_content_trimmed (s : List JournalEntry) (e : JournalEntry)
    (h : getEntryById e.id s = some e) (tv cv : String) :
    (getEntryById e.id (savePageEntry tv cv e s).2).map JournalEntry.content
      = some (jsTrim cv) ∧
    (getEntryById e.id (autoSaveContent e.id cv s).2).map JournalEntry.content
      = some (jsTrim cv) := by
  constructor
  · have h2 :=
      (getEntryById_updateEntry e.id ⟨some (savePageTitleArg tv e), some cv, none⟩ s e h).2
    rw [savePageEntry, h2]
    rfl
  · have h2 := (getEntryById_updateEntry e.id ⟨none, some cv, none⟩ s e h).2
    rw [autoSaveContent, h2]
    rfl

/-- Witness for C5 (amended) at a concrete store and raw content. -/
theorem savePage_content_trimmed_witness :
    getEntryById "a" wStore = some wEntryA ∧
    (getEntryById "a" (savePageEntry "x" " w " wEntryA wStore).2).map
      JournalEntry.content = some (jsTrim " w ") :=
  ⟨by decide, (savePage_content_trimmed wStore wEntryA (by decide) "x" " w ").1⟩

/-- C10: in the paginated editor, a save whose title input trims to
empty passes the entry's existing title to the store (both in
`saveCurrentPage` and in the title auto-save), so — given the store
invariant that titles are stored trimmed — the stored title is unchanged
and a non-empty title is never replaced by a blank one from the editor,
for any title input. -/
theorem savePage_preserves_title (s : List JournalEntry) (e : JournalEntry)
    (h : getEntryById e.id s = some e) (hinv : jsTrim e.title = e.title) :
    (∀ tv, jsTrim tv = "" → savePageTitleArg tv e = e.title) ∧
    (∀ tv cv, jsTrim tv = "" →
      (getEntryById e.id (savePageEntry tv cv e s).2).map JournalEntry.title
        = some e.title) ∧
    (∀ tv, jsTrim tv = "" →
      (getEntryById e.id (autoSaveTitle tv e s).2).map JournalEntry.title
        = some e.title) ∧
    (∀ tv cv, e.title ≠ "" →
      (getEntryById e.id (savePageEntry tv cv e s).2).map JournalEntry.title
        ≠ some "") ∧
    (∀ tv, e.title ≠ "" →
      (getEntryById e.id (autoSaveTitle tv e s).2).map JournalEntry.title
        ≠ some "") := by
  have key : ∀ tv, jsTrim (savePageTitleArg tv e)
      = if jsTrim tv = "" then e.title else jsTrim tv := by
    intro tv
    by_cases htv : jsTrim tv = ""
    · simp [savePageTitleArg, htv, hinv]
    · simp [savePageTitleArg, htv, jsTrim_idem]
  have stored1 : ∀ tv cv,
      (getEntryById e.id (savePageEntry tv cv e s).2).map JournalEntry.title
        = some (jsTrim (savePageTitleArg tv e)) := by
    intro tv cv
    have h2 :=
      (getEntryById_updateEntry e.id ⟨some (savePageTitleArg tv e), some cv, none⟩ s e h).2
    rw [savePageEntry, h2]
    rfl
  have stored2 : ∀ tv,
      (getEntryById e.id (autoSaveTitle tv e s).2).map JournalEntry.title
        = some (jsTrim (savePageTitleArg tv e)) := by
    intro tv
    have h2 :=
      (getEntryById_updateEntry e.id ⟨some (savePageTitleArg tv e), none, none⟩ s e h).2
    rw [autoSaveTitle, h2]
    rfl
  refine ⟨?_, ?_, ?_, ?_, ?_⟩
  · intro tv htv
    rw [savePageTitleArg, if_pos htv]
  · intro tv cv htv
    rw [stored1 tv cv, key tv, if_pos htv]
  · intro tv htv
    rw [stored2 tv, key tv, if_pos htv]
  · intro tv cv hne
    rw [stored1 tv cv, key tv]
    by_cases htv : jsTrim tv = ""
    · rw [if_pos htv]
      simpa using hne
    · rw [if_neg htv]
      simpa using htv
  · intro tv hne
    rw [stored2 tv, key tv]
    by_cases htv : jsTrim tv = ""
    · rw [if_pos htv]
      simpa using hne
    · rw [if_neg htv]
      simpa using htv

/-- Witness for C10 at a concrete store and whitespace-only input. -/
theorem savePage_preserves_title_witness :
    getEntryById "a" wStore = some wEntryA ∧
    jsTrim wEntryA.title = wEntryA.title ∧
    jsTrim "  " = "" ∧
    (getEntryById "a" (savePageEntry "  " "c" wEntryA wStore).2).map
      JournalEntry.title = some wEntryA.title :=
  ⟨by decide, by decide, by decide,
    (savePage_preserves_title wStore wEntryA (by decide) (by decide)).2.1 "  " "c"
      (by decide)⟩

theorem chunksGo_flatten (c : Nat) (hc : 0 < c) :
    ∀ (f : Nat) (l : List JournalEntry), l.length ≤ f →
      (chunksGo f c l).flatten = l := by
  intro f
  induction f with
  | zero =>
    intro l hl
    have hnil : l = [] := List.eq_nil_of_length_eq_zero (Nat.le_zero.mp hl)
    subst hnil
    rfl
  | succ f ih =>
    intro l hl
    cases l with
    | nil => rfl
    | cons x xs =>
      show ((x :: xs).take c :: chunksGo f c ((x :: xs).drop c)).flatten = x :: xs
      rw [List.flatten_cons, ih _ (by simp [List.length_drop]; simp at hl; omega)]
      exact List.take_append_drop c (x :: xs)

theorem chunksGo_page_size (c : Nat) :
    ∀ (f : Nat) (l : List JournalEntry), ∀ p ∈ chunksGo f c l, p.length ≤ c := by
  intro f
  induction f with
  | zero =>
    intro l p hp
    cases l <;> simp [chunksGo] at hp
  | succ f ih =>
    intro l p hp
    cases l with
    | nil => simp [chunksGo] at hp
    | cons x xs =>
      have heq : chunksGo (f + 1) c (x :: xs)
          = (x :: xs).take c :: chunksGo f c ((x :: xs).drop c) := rfl
      rw [heq] at hp
      rcases List.mem_cons.mp hp with rfl | hp
      · simp [List.length_take]
      · exact ih _ p hp

/-- C6: for positive capacity, `groupEntriesIntoPages` partitions the
input into consecutive non-overlapping pages in order — their
concatenation is the input — each of at most `capacity` entries; an
empty input yields exactly one empty page, and five entries at capacity
two yield pages of sizes [2, 2, 1]. -/
theorem groupEntriesIntoPages_spec (c : Nat) (hc : 0 < c) (l : List JournalEntry) :
    (groupEntriesIntoPages c l).flatten = l ∧
    (∀ p ∈ groupEntriesIntoPages c l, p.length ≤ c) ∧
    groupEntriesIntoPages c [] = [[]] ∧
    (∀ e1 e2 e3 e4 e5 : JournalEntry,
      (groupEntriesIntoPages 2 [e1, e2, e3, e4, e5]).map List.length = [2, 2, 1]) := by
  refine ⟨?_, ?_, rfl, fun e1 e2 e3 e4 e5 => rfl⟩
  · cases l with
    | nil => rfl
    | cons x xs =>
      have h1 : (chunksGo (x :: xs).length c (x :: xs)).isEmpty = false := rfl
      show (if (chunksGo (x :: xs).length c (x :: xs)).isEmpty then [[]]
            else chunksGo (x :: xs).length c (x :: xs)).flatten = x :: xs
      simp only [h1, Bool.false_eq_true, if_false]
      exact chunksGo_flatten c hc _ _ le_rfl
  · cases l with
    | nil =>
      intro p hp
      have hp1 : p = [] := by simpa [groupEntriesIntoPages, chunksGo] using hp
      simp [hp1]
    | cons x xs =>
      intro p hp
      have h1 : (chunksGo (x :: xs).length c (x :: xs)).isEmpty = false := rfl
      have hp2 : p ∈ chunksGo (x :: xs).length c (x :: xs) := by
        have hshape : groupEntriesIntoPages c (x :: xs)
            = chunksGo (x :: xs).length c (x :: xs) := by
          show (if (chunksGo (x :: xs).length c (x :: xs)).isEmpty then [[]]
                else chunksGo (x :: xs).length c (x :: xs))
              = chunksGo (x :: xs).length c (x :: xs)
          simp only [h1, Bool.false_eq_true, if_false]
        rw [hshape] at hp
        exact hp
      exact chunksGo_page_size c _ _ p hp2

/-- Witness for C6 at capacity 2 on a concrete store. -/
theorem groupEntriesIntoPages_spec_witness :
    0 < 2 ∧ (groupEntriesIntoPages 2 wStore).flatten = wStore :=
  ⟨by decide, (groupEntriesIntoPages_spec 2 (by decide) wStore).1⟩

theorem streakGo_nil (today : Int) (k : Nat) : streakGo today [] k = k := rfl

theorem streakGo_cons_eq (today d : Int) (ds : List Int) (k : Nat)
    (h : d = today - (k : Int)) :
    streakGo today (d :: ds) k = streakGo today ds (k + 1) := by
  simp only [streakGo]
  rw [if_pos h]

theorem streakGo_cons_lt (today d : Int) (ds : List Int) (k : Nat)
    (h : d < today - (k : Int)) :
    streakGo today (d :: ds) k = k := by
  simp only [streakGo]
  rw [if_neg (by omega), if_pos h]

theorem streakGo_cons_gt (today d : Int) (ds : List Int) (k : Nat)
    (h : today - (k : Int) < d) :
    streakGo today (d :: ds) k = streakGo today ds k := by
  simp only [streakGo]
  rw [if_neg (by omega), if_neg (by omega)]

theorem sortByTsDesc_pair (e1 e2 : JournalEntry) (h : e2.timestamp ≤ e1.timestamp) :
    sortByTsDesc [e1, e2] = [e1, e2] := by
  simp only [sortByTsDesc, insertByTsDesc]
  rw [if_neg (by omega)]

theorem sortByTsDesc_triple (e1 e2 e3 : JournalEntry)
    (h32 : e3.timestamp ≤ e2.timestamp) (h21 : e2.timestamp ≤ e1.timestamp) :
    sortByTsDesc [e1, e2, e3] = [e1, e2, e3] := by
  simp only [sortByTsDesc, insertByTsDesc]
  rw [if_neg (by omega)]
  simp only [insertByTsDesc]
  rw [if_neg (by omega)]

/-- C7: `calculateStreak` counts consecutive calendar days backward from
today, stopping at the first gap: no entries give 0; entries dated today
and yesterday (and none earlier) give 2; a lone entry dated two days ago
gives 0; entries dated today and two days ago (none yesterday) give 1;
and a duplicate same-day entry does not increment the streak twice. -/
theorem calculateStreak_spec (dayOf : Nat → Int) (today : Int) :
    calculateStreak dayOf today [] = 0 ∧
    (∀ e1 e2 : JournalEntry, e2.timestamp ≤ e1.timestamp →
      dayOf e1.timestamp = today → dayOf e2.timestamp = today - 1 →
      calculateStreak dayOf today [e1, e2] = 2) ∧
    (∀ e : JournalEntry, dayOf e.timestamp = today - 2 →
      calculateStreak dayOf today [e] = 0) ∧
    (∀ e1 e2 : JournalEntry, e2.timestamp ≤ e1.timestamp →
      dayOf e1.timestamp = today → dayOf e2.timestamp = today - 2 →
      calculateStreak dayOf today [e1, e2] = 1) ∧
    (∀ e1 e2 e3 : JournalEntry,
      e3.timestamp ≤ e2.timestamp → e2.timestamp ≤ e1.timestamp →
      dayOf e1.timestamp = today → dayOf e2.timestamp = today →
      dayOf e3.timestamp = today - 1 →
      calculateStreak dayOf today [e1, e2, e3] = 2) := by
  refine ⟨rfl, ?_, ?_, ?_, ?_⟩
  · intro e1 e2 hts h1 h2
    show streakGo today ((sortByTsDesc [e1, e2]).map fun e => dayOf e.timestamp) 0 = 2
    rw [sortByTsDesc_pair e1 e2 hts]
    simp only [List.map_cons, List.map_nil, h1, h2]
    rw [streakGo_cons_eq _ _ _ 0 (by push_cast; omega)]
    rw [streakGo_cons_eq _ _ _ 1 (by push_cast; omega)]
    rfl
  · intro e h1
    show streakGo today ([e].map fun x => dayOf x.timestamp) 0 = 0
    simp only [List.map_cons, List.map_nil, h1]
    rw [streakGo_cons_lt _ _ _ 0 (by push_cast; omega)]
  · intro e1 e2 hts h1 h2
    show streakGo today ((sortByTsDesc [e1, e2]).map fun e => dayOf e.timestamp) 0 = 1
    rw [sortByTsDesc_pair e1 e2 hts]
    simp only [List.map_cons, List.map_nil, h1, h2]
    rw [streakGo_cons_eq _ _ _ 0 (by push_cast; omega)]
    rw [streakGo_cons_lt _ _ _ 1 (by push_cast; omega)]
  · intro e1 e2 e3 h32 h21 h1 h2 h3
    show streakGo today ((sortByTsDesc [e1, e2, e3]).map fun e => dayOf e.timestamp) 0 = 2
    rw [sortByTsDesc_triple e1 e2 e3 h32 h21]
    simp only [List.map_cons, List.map_nil, h1, h2, h3]
    rw [streakGo_cons_eq _ _ _ 0 (by push_cast; omega)]
    rw [streakGo_cons_gt _ _ _ 1 (by push_cast; omega)]
    rw [streakGo_cons_eq _ _ _ 1 (by push_cast; omega)]
    rfl

/-- Identity day truncation used by the streak witness: timestamps that
already are day numbers. -/
def wDay : Nat → Int := fun ts => (ts : Int)

/-- Witness for C7: entries on day 2 (today) and day 1 (yesterday). -/
theorem calculateStreak_spec_witness :
    wEntryA.timestamp ≤ wEntryB.timestamp ∧
    wDay wEntryB.timestamp = 2 ∧ wDay wEntryA.timestamp = 2 - 1 ∧
    calculateStreak wDay 2 [wEntryB, wEntryA] = 2 :=
  ⟨by decide, by decide, by decide,
    (calculateStreak_spec wDay 2).2.1 wEntryB wEntryA (by decide) (by decide) (by decide)⟩

/-- Concrete array heap for the C9 counterexample: the store's internal
array (reference 0) holds one entry reference, 0. -/
def wArrHeap : Nat → List Nat := setArr (fun _ => []) 0 [0]

/-- Concrete entry heap for the C9 counterexample. -/
def wHeap : Nat → JournalEntry := fun _ => wEntryA

/-- Counterexample to C9 as stated: `getAllEntries` returns a shallow
copy (`[...this.entries]`), so the entry records inside the returned
array are the store's own records; mutating the record reachable from
the copy (reference 0, retitled "hacked") changes the store's observable
collection. -/
theorem getAllEntries_record_mutation_counterexample :
    getAllEntriesAlloc wArrHeap 0 1 1 = wArrHeap 0 ∧
    0 ∈ getAllEntriesAlloc wArrHeap 0 1 1 ∧
    observedEntries (setEntryTitle wHeap 0 "hacked") (wArrHeap 0)
      ≠ observedEntries wHeap (wArrHeap 0) :=
  ⟨by decide, by decide, by decide⟩

/-- C9 (amended): `getAllEntries` returns a fresh array object whose
contents equal the internal collection, and no mutation of the returned
array itself changes the store's internal array; the entry records are
shared by reference, however, so mutating a returned entry record does
change the store's observable collection. -/
theorem getAllEntries_shallow_copy (A : Nat → List Nat) (sid cid : Nat)
    (hfresh : cid ≠ sid) :
    getAllEntriesAlloc A sid cid cid = A sid ∧
    (∀ v, setArr (getAllEntriesAlloc A sid cid) cid v sid = A sid) ∧
    (∀ (h : Nat → JournalEntry) (r : Nat) (t : String), r ∈ A sid →
      (h r).title ≠ t →
      observedEntries (setEntryTitle h r t) (A sid) ≠ observedEntries h (A sid)) := by
  refine ⟨?_, ?_, ?_⟩
  · simp [getAllEntriesAlloc, setArr]
  · intro v
    simp [getAllEntriesAlloc, setArr, Ne.symm hfresh]
  · intro h r t hr hne heq
    rw [observedEntries, observedEntries] at heq
    have h2 : setEntryTitle h r t r = h r := (List.map_eq_map_iff.mp heq) r hr
    have h3 : ({ h r with title := t } : JournalEntry) = h r := by
      simpa [setEntryTitle] using h2
    exact hne (by simpa using (congrArg JournalEntry.title h3).symm)

/-- Witness for C9 (amended) at a concrete heap. -/
theorem getAllEntries_shallow_copy_witness :
    (1 : Nat) ≠ 0 ∧
    setArr (getAllEntriesAlloc wArrHeap 0 1) 1 [7, 8] 0 = wArrHeap 0 :=
  ⟨by decide, (getAllEntries_shallow_copy wArrHeap 0 1 (by decide)).2.1 [7, 8]⟩

end JournalModel
